import Mathlib

/-!
Verification of the staking-snapshot core of `reward/staking_manager.go`.

Modelling conventions:
* 20-byte account addresses (`common.Address`) are modelled by their numeric
  value, as `ℕ`; only equality of addresses matters to the verified code.
* `uint64` values are modelled as `ℕ`; where the Go code can overflow
  (the `+=` on a consolidated staking amount) the model reduces modulo `2^64`.
* `float64` arithmetic is modelled by exact rational arithmetic (`ℚ`);
  `math.Round` (round half away from zero) is modelled by `roundHalfAway`.
* Fallible operations return `Option` / a pair with an `Option MgrError`.
-/

/-- Account addresses, modelled by their numeric value. -/
abbrev Address : Type := ℕ

/-- Modulus of Go's `uint64` type. -/
def UINT64MOD : ℕ := 2 ^ 64

/-- Addition of `uint64` values, with Go's wraparound semantics. -/
def add64 (a b : ℕ) : ℕ := (a + b) % UINT64MOD

/-- Rounding to the nearest integer, halves rounded away from zero; this is
the semantics of Go's `math.Round`. -/
def roundHalfAway (q : ℚ) : ℤ :=
  if q < 0 then -⌊-q + 1/2⌋ else ⌊q + 1/2⌋

/-- Rounding to two decimal places as done at the end of
`CalcGiniCoefficient`: `math.Round(result*100) / 100`. -/
def round2 (q : ℚ) : ℚ := (roundHalfAway (q * 100) : ℚ) / 100

/-- Ascending sort used by `CalcGiniCoefficient` (`sort.Sort` with the
`float64Slice` order `p[i] < p[j]`, i.e. ascending order). -/
def sortAsc (l : List ℚ) : List ℚ := l.insertionSort (· ≤ ·)

/-- Loop body of `CalcGiniCoefficient`: iterates over the sorted slice with
index `i`, accumulator `acc` (`sumOfAbsoluteDifferences`) and running sum
`s` (`subSum`); for each element `x` it adds `x*i - s` to the accumulator and
`x` to the running sum.  Returns the final accumulator and running sum. -/
def giniLoop : List ℚ → ℕ → ℚ → ℚ → ℚ × ℚ
  | [], _, acc, s => (acc, s)
  | x :: xs, i, acc, s => giniLoop xs (i + 1) (acc + (x * (i : ℚ) - s)) (s + x)

/-- Embedding of `CalcGiniCoefficient` (staking_manager.go:620-637): sort
ascending, run the accumulation loop starting from index 0 with accumulator 0
and `subSum` 0, divide the accumulator by the final `subSum` and by the
length, and round to 2 decimal places. -/
def CalcGiniCoefficient (stakingAmount : List ℚ) : ℚ :=
  let sorted := sortAsc stakingAmount
  let p := giniLoop sorted 0 0 0
  round2 (p.1 / p.2 / (sorted.length : ℚ))

/-- Accumulator value described by the spec sentence for claim C1: for each
element at sorted position `i` (0-based), add `value·i` minus the running sum
of the earlier elements; stated directly as a sum over positions. -/
def specGiniAccum (l : List ℚ) : ℚ :=
  (((List.range l.length).map
    (fun j => l.getD j 0 * (j : ℚ) - (l.take j).sum)).sum)

/-- Gini coefficient as worded by the spec: sort ascending; form the
accumulator of `specGiniAccum`; divide by the sum of all elements and then by
the element count; round to 2 decimal places (half away from zero). -/
def specGini (l : List ℚ) : ℚ :=
  let sorted := sortAsc l
  round2 (specGiniAccum sorted / sorted.sum / (sorted.length : ℚ))

/-- Non-finite-aware refinement of the final divisions of
`CalcGiniCoefficient`.  The loop arithmetic on finite float64 inputs stays
finite, but when the final `subSum` is 0 the division
`sumOfAbsoluteDifferences / subSum` is non-finite — NaN when the accumulator
is also 0, which is the case for non-negative inputs (and for the empty
input, where the division is `0/0/0`), an infinity otherwise — and
`math.Round` and the remaining division by 100 propagate it.  `none` stands
for a non-finite result; when `subSum` is non-zero the result is the finite
value computed by `CalcGiniCoefficient`. -/
def CalcGiniCoefficientF (stakingAmount : List ℚ) : Option ℚ :=
  let sorted := sortAsc stakingAmount
  let p := giniLoop sorted 0 0 0
  if p.2 = 0 then none
  else some (round2 (p.1 / p.2 / (sorted.length : ℚ)))

/-- Staking information fetched for a staking block
(struct `StakingInfo`, staking_manager.go:387-402). -/
structure StakingInfo where
  BlockNum : ℕ
  CouncilNodeAddrs : List Address
  CouncilStakingAddrs : List Address
  CouncilRewardAddrs : List Address
  KIRAddr : Address
  PoCAddr : Address
  UseGini : Bool
  Gini : ℚ
  CouncilStakingAmounts : List ℕ
  deriving DecidableEq

/-- One consolidated validator entry
(struct `consolidatedNode`, staking_manager.go:418-423). -/
structure ConsolidatedNode where
  NodeAddrs : List Address
  StakingAddrs : List Address
  RewardAddr : Address
  StakingAmount : ℕ
  deriving DecidableEq

/-- Consolidated staking information
(struct `ConsolidatedStakingInfo`, staking_manager.go:425-428); the Go
`nodeIndex` map is modelled as an association list where a later binding for
the same key shadows earlier ones (as map assignment overwrites). -/
structure ConsolidatedStakingInfo where
  nodes : List ConsolidatedNode
  nodeIndex : List (Address × ℕ)
  deriving DecidableEq

/-- Lookup in an association list modelling a Go map whose most recent
binding for a key is the front-most one. -/
def lookupA : List (Address × ℕ) → Address → Option ℕ
  | [], _ => none
  | (k, v) :: t, a => if k = a then some v else lookupA t a

/-- Replacement of the element at index `i` by `f` of it, other elements and
out-of-range indices untouched (models `c.nodes[idx] = ...` updates). -/
def listModify : List α → ℕ → (α → α) → List α
  | [], _, _ => []
  | x :: xs, 0, f => f x :: xs
  | x :: xs, i + 1, f => x :: listModify xs i f

/-- One index-aligned registration record: the quadruple
`(CouncilNodeAddrs[j], CouncilStakingAddrs[j], CouncilRewardAddrs[j],
CouncilStakingAmounts[j])` read by the loop of `GetConsolidatedStakingInfo`. -/
structure CRecord where
  node : Address
  staking : Address
  reward : Address
  amount : ℕ
  deriving DecidableEq

/-- Index-aligned zip of the four council sequences; under the StakingInfo
length invariant this is exactly the sequence of records the Go loop
`for j := 0; j < len(s.CouncilNodeAddrs); j++` reads. -/
def zipRecords : List Address → List Address → List Address → List ℕ → List CRecord
  | n :: ns, s :: ss, r :: rs, a :: amts =>
      ⟨n, s, r, a⟩ :: zipRecords ns ss rs amts
  | _, _, _, _ => []

/-- Record sequence of a StakingInfo. -/
def stakingRecords (s : StakingInfo) : List CRecord :=
  zipRecords s.CouncilNodeAddrs s.CouncilStakingAddrs s.CouncilRewardAddrs
    s.CouncilStakingAmounts

/-- Loop body of `GetConsolidatedStakingInfo` (staking_manager.go:552-574):
if the record's reward address is not yet in `rewardIndex`, append a fresh
single-record entry and index it; otherwise append the node and staking
addresses to the existing entry at the indexed position and add the amount
(uint64 `+=`, hence `add64`) to its running sum. -/
def consolidateStep (st : ConsolidatedStakingInfo × List (Address × ℕ))
    (rec : CRecord) : ConsolidatedStakingInfo × List (Address × ℕ) :=
  let c := st.1
  let rewardIndex := st.2
  match lookupA rewardIndex rec.reward with
  | none =>
      (⟨c.nodes ++ [⟨[rec.node], [rec.staking], rec.reward, rec.amount⟩],
        (rec.node, c.nodes.length) :: c.nodeIndex⟩,
       (rec.reward, c.nodes.length) :: rewardIndex)
  | some idx =>
      (⟨listModify c.nodes idx
          (fun cn =>
            { cn with
              NodeAddrs := cn.NodeAddrs ++ [rec.node]
              StakingAddrs := cn.StakingAddrs ++ [rec.staking]
              StakingAmount := add64 cn.StakingAmount rec.amount }),
        (rec.node, idx) :: c.nodeIndex⟩,
       rewardIndex)

/-- Embedding of `GetConsolidatedStakingInfo` (staking_manager.go:544-576):
fold the step over the records, starting from empty nodes and empty maps. -/
def GetConsolidatedStakingInfo (s : StakingInfo) : ConsolidatedStakingInfo :=
  ((stakingRecords s).foldl consolidateStep (⟨[], []⟩, [])).1

/-- Embedding of `CalcGiniCoefficientMinStake` (staking_manager.go:592-604):
collect the staking amounts of the consolidated nodes whose amount is at
least `minStake` (converted to float); if none qualifies return the sentinel
`DefaultGiniCoefficient = -1`; otherwise compute the Gini coefficient of the
collected amounts. -/
def ConsolidatedStakingInfo.CalcGiniCoefficientMinStake
    (c : ConsolidatedStakingInfo) (minStake : ℕ) : ℚ :=
  let amounts := (c.nodes.filter (fun nd => minStake ≤ nd.StakingAmount)).map
    (fun nd => (nd.StakingAmount : ℚ))
  if amounts.isEmpty then -1 else CalcGiniCoefficient amounts

/-- First-occurrence deduplication, with the already-emitted elements as an
accumulator: keeps the first occurrence of each element, in order. -/
def firstDedupAux : List Address → List Address → List Address
  | [], _ => []
  | a :: l, seen =>
      if a ∈ seen then firstDedupAux l seen else a :: firstDedupAux l (a :: seen)

/-- First-occurrence deduplication of a list of addresses. -/
def firstDedup (l : List Address) : List Address := firstDedupAux l []

/-- Position of the first occurrence of an element in a list
(`none` when absent). -/
def posOf (a : Address) : List Address → Option ℕ
  | [] => none
  | b :: l => if b = a then some 0 else (posOf a l).map (· + 1)

/-- Running amount of a group, as the Go code builds it: the first record's
amount taken as-is (a `uint64`), each later amount added with wraparound. -/
def groupAmount : List ℕ → ℕ
  | [] => 0
  | a :: amts => amts.foldl add64 a

/-- Consolidated entry the spec sentence for claim C4 describes for one
reward address: all records with that reward address, in input order, give
the node-address list, the staking-address list and the summed amount. -/
def groupFor (recs : List CRecord) (r : Address) : ConsolidatedNode :=
  let grp := recs.filter (fun rec => rec.reward = r)
  ⟨grp.map (fun rec => rec.node), grp.map (fun rec => rec.staking), r,
    groupAmount (grp.map (fun rec => rec.amount))⟩

/-- Consolidation as worded by the spec: one entry per reward address, in
order of first appearance, grouping the records of that reward address. -/
def consolidateSpec (recs : List CRecord) : List ConsolidatedNode :=
  (firstDedup (recs.map (fun rec => rec.reward))).map (groupFor recs)

/-- Serialization intermediary (struct `stakingInfoRLP`,
staking_manager.go:430-440): the Gini coefficient travels as a `uint64`. -/
structure StakingInfoRLP where
  BlockNum : ℕ
  CouncilNodeAddrs : List Address
  CouncilStakingAddrs : List Address
  CouncilRewardAddrs : List Address
  KIRAddr : Address
  PoCAddr : Address
  UseGini : Bool
  Gini : ℕ
  CouncilStakingAmounts : List ℕ
  deriving DecidableEq

/-- Modelled from the spec: `math.Float64bits` (Go standard library, absent
from src).  The float model is `ℚ`; the spec requires only that the value is
"carried as the raw bit pattern of a 64-bit float" and "reconstructed by
reinterpreting those bits" with a bit-exact round trip, so the pair
`float64bits` / `float64frombits` is modelled as an explicit injection into
`ℕ` together with its left inverse (sign bit, magnitude of the numerator,
denominator). -/
def float64bits (q : ℚ) : ℕ :=
  Nat.pair (2 * q.num.natAbs + (if q.num < 0 then 1 else 0)) q.den

/-- Modelled from the spec: `math.Float64frombits` (Go standard library,
absent from src); inverse of `float64bits`. -/
def float64frombits (n : ℕ) : ℚ :=
  let e := (Nat.unpair n).1
  let d := (Nat.unpair n).2
  (if e % 2 = 1 then -((e / 2 : ℕ) : ℚ) else ((e / 2 : ℕ) : ℚ)) / (d : ℚ)

/-- Embedding of `StakingInfo.EncodeRLP` (staking_manager.go:527-530): the
fields are laid out in the order of `stakingInfoRLP`, the Gini coefficient
converted with `math.Float64bits`.  The byte-level RLP coding of the
resulting integer-oriented record (package `rlp`, absent from src) is
modelled as the identity on the record, per the spec's requirement that the
wire form losslessly round-trips every field. -/
def StakingInfo.EncodeRLP (s : StakingInfo) : StakingInfoRLP :=
  ⟨s.BlockNum, s.CouncilNodeAddrs, s.CouncilStakingAddrs,
    s.CouncilRewardAddrs, s.KIRAddr, s.PoCAddr, s.UseGini,
    float64bits s.Gini, s.CouncilStakingAmounts⟩

/-- Embedding of `StakingInfo.DecodeRLP` (staking_manager.go:532-542): the
decoded record's fields are assigned back, the Gini bits reinterpreted with
`math.Float64frombits`. -/
def StakingInfo.DecodeRLP (dec : StakingInfoRLP) : StakingInfo :=
  ⟨dec.BlockNum, dec.CouncilNodeAddrs, dec.CouncilStakingAddrs,
    dec.CouncilRewardAddrs, dec.KIRAddr, dec.PoCAddr, dec.UseGini,
    float64frombits dec.Gini, dec.CouncilStakingAmounts⟩

/-- Error values surfaced by the manager model. -/
inductive MgrError where
  | addressBookFailed
  | dbPutFailed
  | govQueryFailed
  deriving DecidableEq

/-- Observable accesses of the manager to its collaborators: the in-memory
cache, the persistent store, the chain (address-book read) and the
governance helper. -/
inductive Access where
  | cacheGet (n : ℕ)
  | cacheAdd (n : ℕ)
  | dbGet (n : ℕ)
  | dbPut (n : ℕ)
  | chainRead (n : ℕ)
  | govMinStake (n : ℕ)
  deriving DecidableEq

/-- Read-only collaborators of the staking manager.  `interval` is
`params.StakingUpdateInterval()`; `addressBook n` is the outcome of reading
the on-chain registry and balances at block `n` (`none` = error);
`dbPutOk n` tells whether persisting the snapshot of block `n` succeeds;
`minStake n` is `governanceHelper.GetMinimumStakingAtNumber(n)`
(`none` = error). -/
structure ChainEnv where
  interval : ℕ
  addressBook : ℕ → Option StakingInfo
  dbPutOk : ℕ → Bool
  minStake : ℕ → Option ℕ

/-- Mutable state of the staking manager: the in-memory snapshot cache and
the persistent snapshot store, both keyed by staking block number and
modelled as association lists whose front-most binding is current. -/
structure ManagerState where
  cache : List (ℕ × StakingInfo)
  db : List (ℕ × StakingInfo)
  deriving DecidableEq

/-- Lookup keyed by block number. -/
def lookupN : List (ℕ × StakingInfo) → ℕ → Option StakingInfo
  | [], _ => none
  | (k, v) :: t, n => if k = n then some v else lookupN t n

/-- Modelled from the spec: `params.IsStakingUpdateInterval` (package
`params`, absent from src); a block number is a valid staking-update-interval
boundary when it is a multiple of the interval length. -/
def isStakingUpdateInterval (env : ChainEnv) (n : ℕ) : Bool :=
  n % env.interval == 0

/-- Modelled from the spec: `params.CalcStakingBlockNumber` (package
`params`, absent from src); maps a block number to the interval-start block
governing it. -/
def calcStakingBlockNumber (env : ChainEnv) (n : ℕ) : ℕ :=
  n - n % env.interval

/-- Modelled from the spec: `addressBookConnector.getStakingInfoFromAddressBook`
(file `addressbook_connector.go`, absent from src).  Per spec §4.3 the reader
assembles a StakingSnapshot for the interval block with `gini` set to the
sentinel −1 (matching `newStakingInfo` in src, which always sets
`Gini: DefaultGiniCoefficient`). -/
def getStakingInfoFromAddressBook (env : ChainEnv) (blockNum : ℕ) :
    Option StakingInfo :=
  (env.addressBook blockNum).map
    (fun si => { si with BlockNum := blockNum, Gini := -1 })

/-- Modelled from the spec: `getStakingInfoFromDB` (absent from src); a store
read returning the stored snapshot, an absent entry being the error case. -/
def getStakingInfoFromDB (st : ManagerState) (n : ℕ) : Option StakingInfo :=
  lookupN st.db n

/-- Embedding of `fillMissingGiniCoefficient` (staking_manager.go:217-243):
a no-op unless `UseGini` holds and `Gini` is negative; otherwise query the
governance minimum-stake floor (propagating its error), consolidate, and set
`Gini` to `CalcGiniCoefficientMinStake`.  (The Go nil-check on the
consolidation result is vacuous: `GetConsolidatedStakingInfo` never returns
nil.)  Returns the (possibly updated) snapshot, the error, and the trace of
collaborator accesses. -/
def fillMissingGiniCoefficient (env : ChainEnv) (stakingInfo : StakingInfo)
    (number : ℕ) : StakingInfo × Option MgrError × List Access :=
  if stakingInfo.UseGini = false then (stakingInfo, none, [])
  else if 0 ≤ stakingInfo.Gini then (stakingInfo, none, [])
  else
    match env.minStake number with
    | none => (stakingInfo, some .govQueryFailed, [.govMinStake number])
    | some minStaking =>
        let c := GetConsolidatedStakingInfo stakingInfo
        ({ stakingInfo with Gini := c.CalcGiniCoefficientMinStake minStaking },
          none, [.govMinStake number])

/-- Embedding of `updateStakingInfo` (staking_manager.go:169-196): read the
snapshot from the address book (propagating its error); persist it to the
store — before any Gini computation, so the stored form has `Gini = -1` —
and if persistence fails return the snapshot together with the error; then
fill in the Gini coefficient (its error only logged) and add the filled
snapshot to the cache.  Returns `(snapshot?, error?)`, the new state and the
access trace. -/
def updateStakingInfo (env : ChainEnv) (st : ManagerState) (blockNum : ℕ) :
    (Option StakingInfo × Option MgrError) × ManagerState × List Access :=
  match getStakingInfoFromAddressBook env blockNum with
  | none => ((none, some .addressBookFailed), st, [.chainRead blockNum])
  | some stakingInfo =>
      if env.dbPutOk blockNum then
        let st₁ : ManagerState :=
          { st with db := (blockNum, stakingInfo) :: st.db }
        let fill := fillMissingGiniCoefficient env stakingInfo blockNum
        let st₂ : ManagerState :=
          { st₁ with cache := (blockNum, fill.1) :: st₁.cache }
        ((some fill.1, none), st₂,
          [.chainRead blockNum, .dbPut blockNum] ++ fill.2.2 ++
            [.cacheAdd blockNum])
      else
        ((some stakingInfo, some .dbPutFailed), st,
          [.chainRead blockNum, .dbPut blockNum])

/-- Embedding of `GetStakingInfoOnStakingBlock` (staking_manager.go:123-166)
for a constructed manager: shortcut to `none` if the given number is not on
a staking update interval; then cache hit (Gini fixup mutates the cached
object in place, modelled by rebinding the key), then store hit (fixup, then
cache add), then recompute via `updateStakingInfo`, returning its snapshot
if non-nil.  Returns the result, the new state and the access trace. -/
def getStakingInfoOnStakingBlock (env : ChainEnv) (st : ManagerState)
    (stakingBlockNumber : ℕ) : Option StakingInfo × ManagerState × List Access :=
  if isStakingUpdateInterval env stakingBlockNumber = false then (none, st, [])
  else
    match lookupN st.cache stakingBlockNumber with
    | some cachedStakingInfo =>
        let fill := fillMissingGiniCoefficient env cachedStakingInfo
          stakingBlockNumber
        (some fill.1,
          { st with cache := (stakingBlockNumber, fill.1) :: st.cache },
          [.cacheGet stakingBlockNumber] ++ fill.2.2)
    | none =>
        match getStakingInfoFromDB st stakingBlockNumber with
        | some storedStakingInfo =>
            let fill := fillMissingGiniCoefficient env storedStakingInfo
              stakingBlockNumber
            (some fill.1,
              { st with cache := (stakingBlockNumber, fill.1) :: st.cache },
              [.cacheGet stakingBlockNumber, .dbGet stakingBlockNumber] ++
                fill.2.2 ++ [.cacheAdd stakingBlockNumber])
        | none =>
            let upd := updateStakingInfo env st stakingBlockNumber
            (upd.1.1, upd.2.1,
              [.cacheGet stakingBlockNumber, .dbGet stakingBlockNumber] ++
                upd.2.2)

/-- Embedding of `CheckStakingInfoStored` (staking_manager.go:199-214) for a
constructed manager: map the block number to its staking block; if the store
already has a snapshot for it, succeed without anything else; otherwise run
the full `updateStakingInfo` path and return its error. -/
def checkStakingInfoStored (env : ChainEnv) (st : ManagerState)
    (blockNum : ℕ) : Option MgrError × ManagerState × List Access :=
  let stakingBlockNumber := calcStakingBlockNumber env blockNum
  match getStakingInfoFromDB st stakingBlockNumber with
  | some _ => (none, st, [.dbGet stakingBlockNumber])
  | none =>
      let upd := updateStakingInfo env st stakingBlockNumber
      (upd.1.2, upd.2.1, [.dbGet stakingBlockNumber] ++ upd.2.2)

/-- Embedding of the migration prerequisite registered by `NewStakingManager`
(staking_manager.go:88-93): `CheckStakingInfoStored(blockNum)` and, if it
succeeded, `CheckStakingInfoStored(blockNum + StakingUpdateInterval())`. -/
def migrationPrerequisite (env : ChainEnv) (st : ManagerState)
    (blockNum : ℕ) : Option MgrError × ManagerState × List Access :=
  match checkStakingInfoStored env st blockNum with
  | (some e, st', tr) => (some e, st', tr)
  | (none, st', tr) =>
      let second := checkStakingInfoStored env st' (blockNum + env.interval)
      (second.1, second.2.1, tr ++ second.2.2)

/-- Concrete StakingInfo used for the consolidation example of the spec:
triples `[(N1,S1,R1),(N2,S2,R1),(N3,S3,R3)]` with amounts `[5,7,3]`. -/
def exampleStakingInfo : StakingInfo :=
  { BlockNum := 0
    CouncilNodeAddrs := [1, 2, 3]
    CouncilStakingAddrs := [11, 12, 13]
    CouncilRewardAddrs := [21, 21, 23]
    KIRAddr := 0
    PoCAddr := 0
    UseGini := true
    Gini := -1
    CouncilStakingAmounts := [5, 7, 3] }

theorem giniLoop_snd (l : List ℚ) : ∀ (i : ℕ) (acc s : ℚ),
    (giniLoop l i acc s).2 = s + l.sum := by
  induction l with
  | nil => intro i acc s; simp [giniLoop]
  | cons x xs ih => intro i acc s; simp [giniLoop, ih]; ring

theorem giniLoop_fst (l : List ℚ) : ∀ (i : ℕ) (acc s : ℚ),
    (giniLoop l i acc s).1 = acc + (((List.range l.length).map
      (fun j => l.getD j 0 * ((i : ℚ) + (j : ℚ)) - (s + (l.take j).sum))).sum) := by
  induction l with
  | nil => intro i acc s; simp [giniLoop]
  | cons x xs ih =>
      intro i acc s
      rw [giniLoop, ih]
      simp only [List.length_cons, List.range_succ_eq_map, List.map_cons,
        List.map_map, List.sum_cons, List.getD_cons_zero, List.getD_cons_succ,
        List.take_zero, List.take_succ_cons, List.sum_nil, List.sum_cons,
        Nat.cast_zero, add_zero, Function.comp]
      rw [List.map_congr_left (l := List.range xs.length)
        (f := (fun j => (x :: xs).getD j 0 * ((i : ℚ) + (j : ℚ)) -
          (s + (List.take j (x :: xs)).sum)) ∘ Nat.succ)
        (g := fun j => xs.getD j 0 * (((i + 1 : ℕ) : ℚ) + (j : ℚ)) -
          (s + x + (xs.take j).sum))
        (by intro j hj; simp [Function.comp]; ring)]
      ring

theorem sortAsc_perm_eq {l₁ l₂ : List ℚ} (h : l₁.Perm l₂) :
    sortAsc l₁ = sortAsc l₂ :=
  List.eq_of_perm_of_sorted
    (((List.perm_insertionSort _ l₁).trans h).trans
      (List.perm_insertionSort _ l₂).symm)
    (List.sorted_insertionSort _ l₁) (List.sorted_insertionSort _ l₂)

theorem giniLoop_fst_nonneg : ∀ (l : List ℚ) (i : ℕ) (acc s : ℚ),
    l.Sorted (· ≤ ·) → (∀ x ∈ l, s ≤ x * (i : ℚ)) → 0 ≤ acc →
    0 ≤ (giniLoop l i acc s).1 := by
  intro l
  induction l with
  | nil => intro i acc s _ _ hacc; simpa [giniLoop] using hacc
  | cons x xs ih =>
      intro i acc s hs hb hacc
      have hx : s ≤ x * (i : ℚ) := hb x (List.mem_cons_self x xs)
      rw [giniLoop]
      apply ih (i + 1) _ (s + x) (List.sorted_cons.mp hs).2
      · intro y hy
        have h1 : x ≤ y := (List.sorted_cons.mp hs).1 y hy
        have h2 : s ≤ y * (i : ℚ) := by
          calc s ≤ x * (i : ℚ) := hx
            _ ≤ y * (i : ℚ) := by
              apply mul_le_mul_of_nonneg_right h1 (by positivity)
        push_cast
        nlinarith
      · nlinarith

theorem giniLoop_fst_le : ∀ (l : List ℚ) (i : ℕ) (acc s : ℚ),
    (∀ x ∈ l, 0 ≤ x) → 0 ≤ s →
    (giniLoop l i acc s).1 ≤ acc + ((i : ℚ) + (l.length : ℚ)) * l.sum := by
  intro l
  induction l with
  | nil => intro i acc s _ _; simp [giniLoop]
  | cons x xs ih =>
      intro i acc s hpos hs
      have hx : 0 ≤ x := hpos x (List.mem_cons_self x xs)
      rw [giniLoop]
      have hrec := ih (i + 1) (acc + (x * (i : ℚ) - s)) (s + x)
        (fun y hy => hpos y (List.mem_cons_of_mem x hy)) (by linarith)
      have hsum : 0 ≤ (xs.length : ℚ) := by positivity
      calc (giniLoop xs (i + 1) (acc + (x * (i : ℚ) - s)) (s + x)).1
          ≤ acc + (x * (i : ℚ) - s) +
            (((i + 1 : ℕ) : ℚ) + (xs.length : ℚ)) * xs.sum := hrec
        _ ≤ acc + ((i : ℚ) + ((x :: xs).length : ℚ)) * (x :: xs).sum := by
            simp only [List.length_cons, List.sum_cons]
            push_cast
            nlinarith [mul_nonneg hsum hx]

theorem roundHalfAway_bounds (q : ℚ) (h0 : 0 ≤ q) (h1 : q ≤ 100) :
    0 ≤ roundHalfAway q ∧ roundHalfAway q ≤ 100 := by
  rw [roundHalfAway, if_neg (by linarith)]
  constructor
  · exact Int.floor_nonneg.mpr (by linarith)
  · have : (⌊q + 1/2⌋ : ℤ) < 101 := by
      rw [Int.floor_lt]
      push_cast
      linarith
    omega

theorem round2_bounds (q : ℚ) (h0 : 0 ≤ q) (h1 : q ≤ 1) :
    0 ≤ round2 q ∧ round2 q ≤ 1 := by
  have h := roundHalfAway_bounds (q * 100) (by linarith) (by linarith)
  rw [round2]
  constructor
  · apply div_nonneg _ (by norm_num)
    exact_mod_cast h.1
  · rw [div_le_one (by norm_num)]
    exact_mod_cast h.2

theorem calcGini_mem_unit (l : List ℚ) (hne : l ≠ [])
    (hpos : ∀ x ∈ l, 0 ≤ x) :
    0 ≤ CalcGiniCoefficient l ∧ CalcGiniCoefficient l ≤ 1 := by
  rw [CalcGiniCoefficient]
  have hperm : (sortAsc l).Perm l := List.perm_insertionSort _ l
  have hsorted : (sortAsc l).Sorted (· ≤ ·) := List.sorted_insertionSort _ l
  have hpos' : ∀ x ∈ sortAsc l, 0 ≤ x := fun x hx => hpos x (hperm.mem_iff.mp hx)
  have hlen : 0 < (sortAsc l).length := by
    rw [hperm.length_eq]
    exact List.length_pos.mpr hne
  have hsum : 0 ≤ (sortAsc l).sum := List.sum_nonneg hpos'
  have hA0 : 0 ≤ (giniLoop (sortAsc l) 0 0 0).1 :=
    giniLoop_fst_nonneg (sortAsc l) 0 0 0 hsorted (by intro x hx; simp) le_rfl
  have hA1 : (giniLoop (sortAsc l) 0 0 0).1 ≤
      ((sortAsc l).length : ℚ) * (sortAsc l).sum := by
    have := giniLoop_fst_le (sortAsc l) 0 0 0 hpos' le_rfl
    simpa using this
  rw [giniLoop_snd]
  simp only [zero_add]
  set A := (giniLoop (sortAsc l) 0 0 0).1 with hA
  set S := (sortAsc l).sum with hS
  set n := ((sortAsc l).length : ℚ) with hn
  have hnq : 0 < n := by positivity
  rcases eq_or_lt_of_le hsum with hz | hpos2
  · have hAz : A = 0 := le_antisymm (by rw [← hz] at hA1; simpa using hA1) hA0
    rw [hAz, ← hz]
    norm_num [round2, roundHalfAway]
  · apply round2_bounds
    · positivity
    · rw [div_le_one hnq, div_le_iff₀ hpos2]
      linarith [hA1]

/-- Claim C1: `CalcGiniCoefficient` computes exactly the value obtained by
sorting ascending, accumulating `value·i` minus the running sum of earlier
elements over sorted positions, dividing by the total and by the count, and
rounding to 2 decimal places half away from zero. -/
theorem claim_C1 (l : List ℚ) : CalcGiniCoefficient l = specGini l := by
  rw [CalcGiniCoefficient, specGini, specGiniAccum, giniLoop_fst, giniLoop_snd]
  simp

theorem calcGiniF_eq_of_sum_ne (l : List ℚ) (hsum : l.sum ≠ 0) :
    CalcGiniCoefficientF l = some (CalcGiniCoefficient l) := by
  rw [CalcGiniCoefficientF, CalcGiniCoefficient]
  rw [if_neg]
  rw [giniLoop_snd, zero_add, sortAsc,
    (List.perm_insertionSort (· ≤ ·) l).sum_eq]
  exact hsum

/-- Counterexample for claim C2 as stated: on the in-scope all-zero input
`[0, 0]` the program's final division is `0/0` in float64, so the result is
non-finite (NaN) and in particular not a value in `[0, 1]`. -/
theorem claim_C2_counterexample :
    CalcGiniCoefficientF [0, 0] = none ∧
    ¬ ∃ q : ℚ, CalcGiniCoefficientF [0, 0] = some q ∧ 0 ≤ q ∧ q ≤ 1 := by
  have h : CalcGiniCoefficientF [0, 0] = none := by
    norm_num [CalcGiniCoefficientF, sortAsc, List.insertionSort,
      List.orderedInsert, giniLoop]
  refine ⟨h, ?_⟩
  rintro ⟨q, hq, _⟩
  rw [h] at hq
  exact Option.noConfusion hq

/-- Claim C2, amended: `CalcGiniCoefficient` is invariant under permutation
of its input; for a non-empty sequence of non-negative values whose sum is
non-zero (at least one positive stake) the result is a finite value in
`[0,1]`; on an all-zero sequence the float64 result is non-finite;
`[1,1,1,1]` gives `0` and `[0,0,0,10]` gives `0.75`. -/
theorem claim_C2 :
    (∀ l₁ l₂ : List ℚ, l₁.Perm l₂ →
      CalcGiniCoefficientF l₁ = CalcGiniCoefficientF l₂) ∧
    (∀ l : List ℚ, l ≠ [] → (∀ x ∈ l, 0 ≤ x) → l.sum ≠ 0 →
      ∃ q, CalcGiniCoefficientF l = some q ∧ 0 ≤ q ∧ q ≤ 1) ∧
    CalcGiniCoefficientF [1, 1, 1, 1] = some 0 ∧
    CalcGiniCoefficientF [0, 0, 0, 10] = some (3/4) := by
  refine ⟨?_, ?_, ?_, ?_⟩
  · intro l₁ l₂ h
    rw [CalcGiniCoefficientF, CalcGiniCoefficientF, sortAsc_perm_eq h]
  · intro l hne hpos hsum
    refine ⟨CalcGiniCoefficient l, calcGiniF_eq_of_sum_ne l hsum, ?_⟩
    exact calcGini_mem_unit l hne hpos
  · rw [calcGiniF_eq_of_sum_ne _ (by norm_num [List.sum_cons, List.sum_nil])]
    norm_num [CalcGiniCoefficient, sortAsc, List.insertionSort,
      List.orderedInsert, giniLoop, round2, roundHalfAway]
  · rw [calcGiniF_eq_of_sum_ne _ (by norm_num [List.sum_cons, List.sum_nil])]
    norm_num [CalcGiniCoefficient, sortAsc, List.insertionSort,
      List.orderedInsert, giniLoop, round2, roundHalfAway]

/-- Witness for the amended claim C2 at concrete inputs: permutation
invariance on `[1,2]` versus `[2,1]`, and the finite `[0,1]` result for
`[1,2]`. -/
theorem claim_C2_witness :
    CalcGiniCoefficientF [(1 : ℚ), 2] = CalcGiniCoefficientF [2, 1] ∧
    (∃ q, CalcGiniCoefficientF [(1 : ℚ), 2] = some q ∧ 0 ≤ q ∧ q ≤ 1) := by
  refine ⟨claim_C2.1 [1, 2] [2, 1] (List.Perm.swap 2 1 []), ?_⟩
  apply claim_C2.2.1 [1, 2] (by simp)
  · intro x hx
    simp only [List.mem_cons, List.not_mem_nil, or_false] at hx
    rcases hx with rfl | rfl <;> norm_num
  · norm_num [List.sum_cons, List.sum_nil]

/-- Claim C3: `CalcGiniCoefficientMinStake` restricts the computation to the
consolidated nodes whose staking amount is at least `minStake`; when no node
meets the floor it returns the sentinel `-1` (not an error); otherwise it
returns `CalcGiniCoefficient` of exactly the qualifying amounts; a
`minStake` of 0 keeps every node. -/
theorem claim_C3 (c : ConsolidatedStakingInfo) (minStake : ℕ) :
    (c.nodes.filter (fun nd => minStake ≤ nd.StakingAmount) = [] →
      c.CalcGiniCoefficientMinStake minStake = -1) ∧
    (c.nodes.filter (fun nd => minStake ≤ nd.StakingAmount) ≠ [] →
      c.CalcGiniCoefficientMinStake minStake =
        CalcGiniCoefficient
          ((c.nodes.filter (fun nd => minStake ≤ nd.StakingAmount)).map
            (fun nd => (nd.StakingAmount : ℚ)))) ∧
    c.nodes.filter (fun nd => (0 : ℕ) ≤ nd.StakingAmount) = c.nodes := by
  refine ⟨?_, ?_, ?_⟩
  · intro h
    rw [ConsolidatedStakingInfo.CalcGiniCoefficientMinStake]
    simp [h]
  · intro h
    rw [ConsolidatedStakingInfo.CalcGiniCoefficientMinStake]
    simp [h]
  · simp

/-- Witness for claim C3: a single consolidated node of stake 5 misses a
floor of 7, so the sentinel `-1` is returned. -/
theorem claim_C3_witness :
    (ConsolidatedStakingInfo.mk [⟨[1], [11], 21, 5⟩] []).CalcGiniCoefficientMinStake 7
      = -1 :=
  (claim_C3 (ConsolidatedStakingInfo.mk [⟨[1], [11], 21, 5⟩] []) 7).1 (by decide)

theorem float64frombits_bits (q : ℚ) : float64frombits (float64bits q) = q := by
  rw [float64bits, float64frombits]
  simp only [Nat.unpair_pair]
  by_cases hneg : q.num < 0
  · rw [if_pos hneg]
    have h2 : (2 * q.num.natAbs + 1) % 2 = 1 := by omega
    have h3 : (2 * q.num.natAbs + 1) / 2 = q.num.natAbs := by omega
    rw [h2, h3, if_pos rfl]
    have h4 : ((q.num.natAbs : ℚ)) = -(q.num : ℚ) := by
      rw [Int.cast_natAbs]
      exact_mod_cast abs_of_neg hneg
    rw [h4, neg_neg, Rat.num_div_den]
  · rw [if_neg hneg]
    have h2 : (2 * q.num.natAbs + 0) % 2 = 0 := by omega
    have h3 : (2 * q.num.natAbs + 0) / 2 = q.num.natAbs := by omega
    rw [h2, h3]
    rw [if_neg (by omega)]
    have h4 : ((q.num.natAbs : ℚ)) = (q.num : ℚ) := by
      rw [Int.cast_natAbs]
      exact_mod_cast abs_of_nonneg (not_lt.mp hneg)
    rw [h4, Rat.num_div_den]

/-- Claim C5: encoding a StakingInfo with `EncodeRLP` and decoding with
`DecodeRLP` reproduces every field; in particular the Gini coefficient —
including the `-1` sentinel and any other negative value — travels as the
raw bit pattern of the 64-bit float and is reproduced exactly. -/
theorem claim_C5 (s : StakingInfo) :
    StakingInfo.DecodeRLP (StakingInfo.EncodeRLP s) = s := by
  cases s
  simp [StakingInfo.EncodeRLP, StakingInfo.DecodeRLP, float64frombits_bits]

theorem mem_firstDedupAux (a : Address) :
    ∀ (l seen : List Address), a ∈ firstDedupAux l seen ↔ a ∈ l ∧ a ∉ seen := by
  intro l
  induction l with
  | nil => intro seen; simp [firstDedupAux]
  | cons b l ih =>
      intro seen
      rw [firstDedupAux]
      by_cases hb : b ∈ seen
      · rw [if_pos hb, ih]
        by_cases hab : a = b
        · subst hab; simp [hb]
        · simp [hab]
      · rw [if_neg hb]
        by_cases hab : a = b
        · subst hab; simp [hb]
        · have h1 : (a ∈ b :: firstDedupAux l (b :: seen)) ↔
              a ∈ firstDedupAux l (b :: seen) := by simp [hab]
          rw [h1, ih]
          simp [hab]

theorem nodup_firstDedupAux :
    ∀ (l seen : List Address), (firstDedupAux l seen).Nodup := by
  intro l
  induction l with
  | nil => intro seen; simp [firstDedupAux]
  | cons b l ih =>
      intro seen
      rw [firstDedupAux]
      by_cases hb : b ∈ seen
      · rw [if_pos hb]; exact ih seen
      · rw [if_neg hb]
        refine List.nodup_cons.mpr ⟨?_, ih (b :: seen)⟩
        intro hc
        exact ((mem_firstDedupAux b l (b :: seen)).mp hc).2 (List.mem_cons_self b seen)

theorem firstDedupAux_append (a : Address) :
    ∀ (l seen : List Address), firstDedupAux (l ++ [a]) seen =
      firstDedupAux l seen ++ (if a ∈ seen ∨ a ∈ l then [] else [a]) := by
  intro l
  induction l with
  | nil =>
      intro seen
      by_cases h : a ∈ seen <;> simp [firstDedupAux, h]
  | cons b l ih =>
      intro seen
      rw [List.cons_append, firstDedupAux, firstDedupAux]
      by_cases hb : b ∈ seen
      · have hcond : (a ∈ seen ∨ a ∈ l) ↔ (a ∈ seen ∨ a ∈ b :: l) := by
          simp only [List.mem_cons]
          constructor
          · rintro (h | h)
            · exact Or.inl h
            · exact Or.inr (Or.inr h)
          · rintro (h | rfl | h)
            · exact Or.inl h
            · exact Or.inl hb
            · exact Or.inr h
        rw [if_pos hb, if_pos hb, ih seen, if_congr hcond rfl rfl]
      · have hcond : (a ∈ b :: seen ∨ a ∈ l) ↔ (a ∈ seen ∨ a ∈ b :: l) := by
          simp only [List.mem_cons]
          tauto
        rw [if_neg hb, if_neg hb, ih (b :: seen), List.cons_append,
          if_congr hcond rfl rfl]

theorem mem_firstDedup (a : Address) (l : List Address) :
    a ∈ firstDedup l ↔ a ∈ l := by
  rw [firstDedup, mem_firstDedupAux]
  simp

theorem nodup_firstDedup (l : List Address) : (firstDedup l).Nodup :=
  nodup_firstDedupAux l []

theorem firstDedup_append (a : Address) (l : List Address) :
    firstDedup (l ++ [a]) = firstDedup l ++ (if a ∈ l then [] else [a]) := by
  rw [firstDedup, firstDedup, firstDedupAux_append]
  simp

theorem posOf_eq_none (a : Address) :
    ∀ l : List Address, posOf a l = none ↔ a ∉ l := by
  intro l
  induction l with
  | nil => simp [posOf]
  | cons b l ih =>
      rw [posOf]
      by_cases hb : b = a
      · subst hb; simp
      · rw [if_neg hb]
        constructor
        · intro h
          have h0 : posOf a l = none := by
            cases hp : posOf a l with
            | none => rfl
            | some v => rw [hp] at h; simp at h
          intro hc
          rcases List.mem_cons.mp hc with rfl | hc
          · exact hb rfl
          · exact (ih.mp h0) hc
        · intro h
          have h1 : a ∉ l := fun hc => h (List.mem_cons_of_mem b hc)
          rw [ih.mpr h1]
          rfl

theorem posOf_append_self (a : Address) (l : List Address) (h : a ∉ l) :
    posOf a (l ++ [a]) = some l.length := by
  induction l with
  | nil => simp [posOf]
  | cons b l ih =>
      rw [List.cons_append, posOf]
      have hb : b ≠ a := fun hc => h (hc ▸ List.mem_cons_self b l)
      rw [if_neg hb, ih (fun hc => h (List.mem_cons_of_mem b hc))]
      simp

theorem posOf_append_ne (r a : Address) (l : List Address) (h : r ≠ a) :
    posOf r (l ++ [a]) = posOf r l := by
  induction l with
  | nil =>
      simp only [List.nil_append, posOf]
      rw [if_neg (fun hc => h hc.symm)]
      rfl
  | cons b l ih =>
      rw [List.cons_append, posOf, posOf, ih]

theorem map_eq_listModify {β : Type} (g g' : Address → β) (f : β → β)
    (r₀ : Address) :
    ∀ (l : List Address) (i : ℕ), l.Nodup → posOf r₀ l = some i →
    (∀ x ∈ l, x ≠ r₀ → g' x = g x) → g' r₀ = f (g r₀) →
    l.map g' = listModify (l.map g) i f := by
  intro l
  induction l with
  | nil => intro i _ hpos; simp [posOf] at hpos
  | cons b l ih =>
      intro i hnd hpos hne hr
      rw [posOf] at hpos
      by_cases hb : b = r₀
      · rw [if_pos hb] at hpos
        have hi : i = 0 := by
          have := Option.some.inj hpos
          omega
        subst hi
        subst hb
        simp only [List.map_cons, listModify]
        rw [hr]
        congr 1
        apply List.map_congr_left
        intro x hx
        exact hne x (List.mem_cons_of_mem b hx)
          (fun hc => (List.nodup_cons.mp hnd).1 (hc ▸ hx))
      · rw [if_neg hb] at hpos
        cases hp : posOf r₀ l with
        | none => rw [hp] at hpos; exact Option.noConfusion hpos
        | some j =>
            rw [hp] at hpos
            simp only [Option.map_some'] at hpos
            have hij : i = j + 1 := (Option.some.inj hpos).symm
            subst hij
            simp only [List.map_cons, listModify]
            congr 1
            · exact hne b (List.mem_cons_self b l) hb
            · exact ih j (List.nodup_cons.mp hnd).2 hp
                (fun x hx hxne => hne x (List.mem_cons_of_mem b hx) hxne) hr

theorem groupAmount_append (l : List ℕ) (a : ℕ) (h : l ≠ []) :
    groupAmount (l ++ [a]) = add64 (groupAmount l) a := by
  cases l with
  | nil => exact absurd rfl h
  | cons x xs => simp [groupAmount, List.foldl_append]

theorem foldl_add64_mod :
    ∀ (xs : List ℕ) (x : ℕ),
      xs.foldl add64 x % UINT64MOD = (x + xs.sum) % UINT64MOD := by
  intro xs
  induction xs with
  | nil => intro x; simp
  | cons y ys ih =>
      intro x
      rw [List.foldl_cons, ih, List.sum_cons]
      rw [add64, Nat.mod_add_mod]
      ring_nf

theorem groupAmount_mod (l : List ℕ) :
    groupAmount l % UINT64MOD = l.sum % UINT64MOD := by
  cases l with
  | nil => rfl
  | cons x xs =>
      rw [groupAmount, foldl_add64_mod, List.sum_cons]


/-- Core refinement for the consolidation engine: the nodes list produced by
the fold of `GetConsolidatedStakingInfo`, started from the empty state, is
the spec-side grouping `consolidateSpec`, and the `rewardIndex` map sends
each reward address to the position of its entry. -/
theorem consolidateLoop_spec (recs : List CRecord) :
    ((recs.foldl consolidateStep (⟨[], []⟩, [])).1.nodes = consolidateSpec recs) ∧
    (∀ r, lookupA (recs.foldl consolidateStep (⟨[], []⟩, [])).2 r =
      posOf r (firstDedup (recs.map (fun rec => rec.reward)))) := by
  induction recs using List.reverseRecOn with
  | nil => exact ⟨rfl, fun r => rfl⟩
  | append_singleton recs rec ih =>
      obtain ⟨ihn, ihl⟩ := ih
      rw [List.foldl_append, List.foldl_cons, List.foldl_nil]
      set S := recs.foldl consolidateStep (⟨⟨[], []⟩, []⟩ :
        ConsolidatedStakingInfo × List (Address × ℕ)) with hS
      have hmapsnoc : (recs ++ [rec]).map (fun x => x.reward) =
          recs.map (fun x => x.reward) ++ [rec.reward] := by simp
      set rl := recs.map (fun x => x.reward) with hrl
      by_cases hmem : rec.reward ∈ rl
      · have hmemd : rec.reward ∈ firstDedup rl := (mem_firstDedup _ _).mpr hmem
        obtain ⟨i, hi⟩ : ∃ i, posOf rec.reward (firstDedup rl) = some i := by
          cases hp : posOf rec.reward (firstDedup rl) with
          | none => exact absurd ((posOf_eq_none _ _).mp hp) (by simp [hmemd])
          | some i => exact ⟨i, rfl⟩
        have hlook : lookupA S.2 rec.reward = some i := (ihl rec.reward).trans hi
        have hgrpne : recs.filter (fun x => x.reward = rec.reward) ≠ [] := by
          intro hc
          obtain ⟨y, hy, hyr⟩ := List.mem_map.mp hmem
          have : y ∈ recs.filter (fun x => x.reward = rec.reward) :=
            List.mem_filter.mpr ⟨hy, by simp [hyr]⟩
          rw [hc] at this
          exact List.not_mem_nil y this
        constructor
        · show (consolidateStep S rec).1.nodes = _
          simp only [consolidateStep, hlook]
          rw [ihn, consolidateSpec, consolidateSpec, hmapsnoc, ← hrl,
            firstDedup_append, if_pos hmem, List.append_nil]
          symm
          apply map_eq_listModify (groupFor recs) (groupFor (recs ++ [rec])) _
            rec.reward (firstDedup rl) i (nodup_firstDedup rl) hi
          · intro x hx hxne
            rw [groupFor, groupFor, List.filter_append]
            have : (List.filter (fun y => decide (y.reward = x)) [rec]) = [] := by
              simp [Ne.symm hxne]
            rw [this, List.append_nil]
          · rw [groupFor, groupFor, List.filter_append]
            have : (List.filter (fun y => decide (y.reward = rec.reward)) [rec]) =
                [rec] := by simp
            rw [this]
            simp only [List.map_append, List.map_cons, List.map_nil]
            have hamt : groupAmount ((recs.filter (fun y => y.reward = rec.reward)).map
                (fun y => y.amount) ++ [rec.amount]) =
                add64 (groupAmount ((recs.filter (fun y => y.reward = rec.reward)).map
                  (fun y => y.amount))) rec.amount := by
              apply groupAmount_append
              simp only [ne_eq, List.map_eq_nil_iff]
              exact hgrpne
            rw [hamt]
        · intro r
          show lookupA (consolidateStep S rec).2 r = _
          simp only [consolidateStep, hlook]
          rw [hmapsnoc, firstDedup_append, if_pos hmem, List.append_nil]
          exact ihl r
      · have hlook : lookupA S.2 rec.reward = none :=
          (ihl rec.reward).trans ((posOf_eq_none _ _).mpr
            (fun hc => hmem ((mem_firstDedup _ _).mp hc)))
        have hfilnil : recs.filter (fun x => x.reward = rec.reward) = [] := by
          rw [List.filter_eq_nil_iff]
          intro y hy
          simp only [decide_eq_true_eq]
          intro hc
          exact hmem (List.mem_map.mpr ⟨y, hy, hc⟩)
        constructor
        · show (consolidateStep S rec).1.nodes = _
          simp only [consolidateStep, hlook]
          rw [ihn, consolidateSpec, consolidateSpec, hmapsnoc, ← hrl,
            firstDedup_append, if_neg hmem, List.map_append]
          congr 1
          · apply List.map_congr_left
            intro x hx
            have hxne : x ≠ rec.reward :=
              fun hc => hmem (hc ▸ (mem_firstDedup x rl).mp hx)
            rw [groupFor, groupFor, List.filter_append]
            have hnil : (List.filter (fun y => decide (y.reward = x)) [rec]) = [] := by
              simp [Ne.symm hxne]
            rw [hnil, List.append_nil]
          · simp only [List.map_cons, List.map_nil]
            rw [groupFor, List.filter_append, hfilnil, List.nil_append]
            have hone : (List.filter (fun y => decide (y.reward = rec.reward)) [rec]) =
                [rec] := by simp
            rw [hone]
            rfl
        · intro r
          show lookupA (consolidateStep S rec).2 r = _
          simp only [consolidateStep, hlook]
          rw [hmapsnoc, firstDedup_append, if_neg hmem]
          rw [lookupA]
          by_cases hr : rec.reward = r
          · rw [if_pos hr]
            subst hr
            rw [posOf_append_self _ _ (fun hc => hmem ((mem_firstDedup _ _).mp hc))]
            have hlen : S.1.nodes.length = (firstDedup rl).length := by
              rw [ihn, consolidateSpec, ← hrl, List.length_map]
            rw [hlen]
          · rw [if_neg hr, posOf_append_ne r rec.reward _ (fun hc => hr hc.symm)]
            exact ihl r

theorem getConsolidated_nodes (s : StakingInfo) :
    (GetConsolidatedStakingInfo s).nodes = consolidateSpec (stakingRecords s) :=
  (consolidateLoop_spec (stakingRecords s)).1

theorem sum_map_filter_split (p : CRecord → Bool) (g : CRecord → ℕ) :
    ∀ l : List CRecord,
      ((l.filter p).map g).sum + ((l.filter (fun x => !(p x))).map g).sum
        = (l.map g).sum := by
  intro l
  induction l with
  | nil => simp
  | cons x xs ih => cases hp : p x <;> simp [List.filter_cons, hp] <;> omega

theorem filter_filter_ne (r k : Address) (hrk : r ≠ k) :
    ∀ l : List CRecord,
      ((l.filter (fun x => !(decide (x.reward = k)))).filter
        (fun x => x.reward = r)) = l.filter (fun x => x.reward = r) := by
  intro l
  induction l with
  | nil => rfl
  | cons x xs ih =>
      by_cases hk : x.reward = k
      · have hr : ¬(x.reward = r) := fun hc => hrk (hc ▸ hk)
        simp [List.filter_cons, hk, hr, ih, Ne.symm hrk]
      · by_cases hr : x.reward = r <;>
          simp [List.filter_cons, hk, hr, ih, hrk, Ne.symm hrk]

theorem sum_filter_partition (g : CRecord → ℕ) :
    ∀ (ks : List Address) (recs : List CRecord), ks.Nodup →
      (∀ rec ∈ recs, rec.reward ∈ ks) →
      (ks.map (fun r => ((recs.filter (fun x => x.reward = r)).map g).sum)).sum
        = (recs.map g).sum := by
  intro ks
  induction ks with
  | nil =>
      intro recs _ hcov
      cases recs with
      | nil => simp
      | cons x xs => exact absurd (hcov x (by simp)) (by simp)
  | cons k ks ih =>
      intro recs hnd hcov
      rw [List.map_cons, List.sum_cons]
      have hsplit := sum_map_filter_split (fun x => decide (x.reward = k)) g recs
      have hks : (ks.map (fun r =>
          ((recs.filter (fun x => x.reward = r)).map g).sum)).sum
          = ((recs.filter (fun x => !(decide (x.reward = k)))).map g).sum := by
        rw [← ih (recs.filter (fun x => !(decide (x.reward = k))))
          (List.nodup_cons.mp hnd).2 (by
            intro y hy
            have hy' := List.mem_filter.mp hy
            have hyk : y.reward ≠ k := by
              have := hy'.2
              simp only [Bool.not_eq_true', decide_eq_false_iff_not] at this
              exact this
            have := hcov y hy'.1
            rcases List.mem_cons.mp this with hc | hc
            · exact absurd hc hyk
            · exact hc)]
        apply congrArg
        apply List.map_congr_left
        intro r hr
        have hrk : r ≠ k := fun hc => (List.nodup_cons.mp hnd).1 (hc ▸ hr)
        rw [filter_filter_ne r k hrk]
      omega

theorem sum_map_one {α : Type} (l : List α) :
    (l.map (fun _ => (1 : ℕ))).sum = l.length := by
  induction l with
  | nil => rfl
  | cons x xs ih => simp [ih, Nat.add_comm]

theorem zipRecords_props :
    ∀ (ns ss rs : List Address) (amts : List ℕ),
      ss.length = ns.length → rs.length = ns.length → amts.length = ns.length →
      (zipRecords ns ss rs amts).map (fun x => x.amount) = amts ∧
      (zipRecords ns ss rs amts).length = ns.length := by
  intro ns
  induction ns with
  | nil =>
      intro ss rs amts h1 h2 h3
      rw [List.length_nil, List.length_eq_zero] at h1 h2 h3
      subst h1; subst h2; subst h3
      exact ⟨rfl, rfl⟩
  | cons n ns ih =>
      intro ss rs amts h1 h2 h3
      cases ss with
      | nil => simp at h1
      | cons s ss =>
          cases rs with
          | nil => simp at h2
          | cons r rs =>
              cases amts with
              | nil => simp at h3
              | cons a amts =>
                  simp only [List.length_cons] at h1 h2 h3
                  obtain ⟨hm, hl⟩ := ih ss rs amts (by omega) (by omega) (by omega)
                  rw [zipRecords]
                  constructor
                  · simp [hm]
                  · simp [hl]

theorem sum_map_mod_congr (l : List Address) (f g : Address → ℕ)
    (h : ∀ a ∈ l, f a % UINT64MOD = g a % UINT64MOD) :
    (l.map f).sum % UINT64MOD = (l.map g).sum % UINT64MOD := by
  induction l with
  | nil => rfl
  | cons a l ih =>
      simp only [List.map_cons, List.sum_cons]
      rw [Nat.add_mod, h a (List.mem_cons_self a l),
        ih (fun b hb => h b (List.mem_cons_of_mem a hb)), ← Nat.add_mod]

/-- Claim C4: under the StakingInfo length invariant, consolidation yields
exactly one entry per reward address, in order of first appearance, each
entry gathering the node addresses, staking addresses and summed amount of
the records sharing that reward address; and the concrete example
`[(N1,S1,R1),(N2,S2,R1),(N3,S3,R3)]` with amounts `[5,7,3]` yields
`R1 → {nodes:[N1,N2], stake:12}` then `R3 → {nodes:[N3], stake:3}`. -/
theorem claim_C4 :
    (∀ s : StakingInfo,
      s.CouncilStakingAddrs.length = s.CouncilNodeAddrs.length →
      s.CouncilRewardAddrs.length = s.CouncilNodeAddrs.length →
      s.CouncilStakingAmounts.length = s.CouncilNodeAddrs.length →
      (GetConsolidatedStakingInfo s).nodes = consolidateSpec (stakingRecords s)) ∧
    (GetConsolidatedStakingInfo exampleStakingInfo).nodes =
      [⟨[1, 2], [11, 12], 21, 12⟩, ⟨[3], [13], 23, 3⟩] :=
  ⟨fun s _ _ _ => getConsolidated_nodes s, by decide⟩

/-- Witness for claim C4: the refinement applied to the example input. -/
theorem claim_C4_witness :
    (GetConsolidatedStakingInfo exampleStakingInfo).nodes =
      consolidateSpec (stakingRecords exampleStakingInfo) :=
  claim_C4.1 exampleStakingInfo (by decide) (by decide) (by decide)

/-- Claim C10: under the StakingInfo length invariant, consolidation
preserves totals and alignment: the sum of the consolidated staking amounts
equals the sum of the input amounts (modulo 2^64, matching Go uint64
addition), every entry has equally long node- and staking-address lists, and
the entries' node addresses exhaust the input records. -/
theorem claim_C10 (s : StakingInfo)
    (h1 : s.CouncilStakingAddrs.length = s.CouncilNodeAddrs.length)
    (h2 : s.CouncilRewardAddrs.length = s.CouncilNodeAddrs.length)
    (h3 : s.CouncilStakingAmounts.length = s.CouncilNodeAddrs.length) :
    ((GetConsolidatedStakingInfo s).nodes.map
        (fun cn => cn.StakingAmount)).sum % UINT64MOD
      = s.CouncilStakingAmounts.sum % UINT64MOD ∧
    (∀ cn ∈ (GetConsolidatedStakingInfo s).nodes,
      cn.NodeAddrs.length = cn.StakingAddrs.length) ∧
    ((GetConsolidatedStakingInfo s).nodes.map
        (fun cn => cn.NodeAddrs.length)).sum = s.CouncilNodeAddrs.length := by
  obtain ⟨hamts, hlen⟩ := zipRecords_props s.CouncilNodeAddrs
    s.CouncilStakingAddrs s.CouncilRewardAddrs s.CouncilStakingAmounts h1 h2 h3
  rw [getConsolidated_nodes, consolidateSpec]
  have hcover : ∀ rec ∈ stakingRecords s,
      rec.reward ∈ firstDedup ((stakingRecords s).map (fun x => x.reward)) := by
    intro rec hr
    rw [mem_firstDedup]
    exact List.mem_map.mpr ⟨rec, hr, rfl⟩
  refine ⟨?_, ?_, ?_⟩
  · rw [List.map_map]
    have hpt := sum_map_mod_congr
      (firstDedup ((stakingRecords s).map (fun x => x.reward)))
      ((fun cn => cn.StakingAmount) ∘ groupFor (stakingRecords s))
      (fun r => (((stakingRecords s).filter
        (fun x => x.reward = r)).map (fun x => x.amount)).sum)
      (by
        intro r _
        simp only [Function.comp, groupFor]
        exact groupAmount_mod _)
    rw [hpt, sum_filter_partition (fun x => x.amount) _ (stakingRecords s)
      (nodup_firstDedup _) hcover]
    rw [show (stakingRecords s).map (fun x => x.amount)
      = s.CouncilStakingAmounts from hamts]
  · intro cn hcn
    obtain ⟨r, _, rfl⟩ := List.mem_map.mp hcn
    simp [groupFor]
  · rw [List.map_map]
    rw [List.map_congr_left (f := (fun cn => cn.NodeAddrs.length) ∘
        groupFor (stakingRecords s))
      (g := fun r => (((stakingRecords s).filter
        (fun x => x.reward = r)).map (fun _ => (1 : ℕ))).sum)
      (by
        intro r _
        simp only [Function.comp, groupFor, List.length_map]
        rw [sum_map_one])]
    rw [sum_filter_partition (fun _ => (1 : ℕ)) _ (stakingRecords s)
      (nodup_firstDedup _) hcover, sum_map_one]
    exact hlen

/-- Witness for claim C10: the invariants at the example input. -/
theorem claim_C10_witness :
    ((GetConsolidatedStakingInfo exampleStakingInfo).nodes.map
        (fun cn => cn.StakingAmount)).sum % UINT64MOD
      = exampleStakingInfo.CouncilStakingAmounts.sum % UINT64MOD ∧
    (∀ cn ∈ (GetConsolidatedStakingInfo exampleStakingInfo).nodes,
      cn.NodeAddrs.length = cn.StakingAddrs.length) ∧
    ((GetConsolidatedStakingInfo exampleStakingInfo).nodes.map
        (fun cn => cn.NodeAddrs.length)).sum
      = exampleStakingInfo.CouncilNodeAddrs.length :=
  claim_C10 exampleStakingInfo (by decide) (by decide) (by decide)

/-- Empty snapshot used in concrete witnesses. -/
def exEnvSI : StakingInfo :=
  { BlockNum := 0, CouncilNodeAddrs := [], CouncilStakingAddrs := [],
    CouncilRewardAddrs := [], KIRAddr := 0, PoCAddr := 0, UseGini := false,
    Gini := -1, CouncilStakingAmounts := [] }

/-- Concrete environment used in witnesses: interval 10, address book always
succeeds, store writes succeed, governance floor 0. -/
def exEnv : ChainEnv :=
  { interval := 10, addressBook := fun _ => some exEnvSI,
    dbPutOk := fun _ => true, minStake := fun _ => some 0 }

/-- Claim C6: for a block number that is not a staking-update-interval
boundary, `GetStakingInfoOnStakingBlock` returns nil immediately: no result,
the state untouched, and an empty access trace — no cache, store or chain
access, for every environment and state. -/
theorem claim_C6 (env : ChainEnv) (st : ManagerState) (n : ℕ)
    (h : isStakingUpdateInterval env n = false) :
    getStakingInfoOnStakingBlock env st n = (none, st, []) := by
  rw [getStakingInfoOnStakingBlock, if_pos h]

/-- Witness for claim C6: block 3 with interval 10. -/
theorem claim_C6_witness :
    getStakingInfoOnStakingBlock exEnv ⟨[], []⟩ 3 = (none, ⟨[], []⟩, []) :=
  claim_C6 exEnv ⟨[], []⟩ 3 rfl

/-- Claim C7: when `updateStakingInfo` recomputes a snapshot and the store
write succeeds, the value written to the store is the pre-fixup snapshot,
whose Gini is the sentinel `-1`; when the store write fails, the recomputed
snapshot is still returned (non-nil) together with the reported error. -/
theorem claim_C7 (env : ChainEnv) (st : ManagerState) (blockNum : ℕ) (raw : StakingInfo)
    (hab : env.addressBook blockNum = some raw) :
    (env.dbPutOk blockNum = true →
      ∃ si₀, (updateStakingInfo env st blockNum).2.1.db = (blockNum, si₀) :: st.db ∧
        si₀.Gini = -1) ∧
    (env.dbPutOk blockNum = false →
      (∃ si, (updateStakingInfo env st blockNum).1.1 = some si) ∧
        (updateStakingInfo env st blockNum).1.2 = some MgrError.dbPutFailed) := by
  constructor
  · intro hput
    simp only [updateStakingInfo, getStakingInfoFromAddressBook, hab,
      Option.map_some', hput, if_true]
    exact ⟨{ raw with BlockNum := blockNum, Gini := -1 }, rfl, rfl⟩
  · intro hput
    simp only [updateStakingInfo, getStakingInfoFromAddressBook, hab,
      Option.map_some', hput]
    exact ⟨⟨_, rfl⟩, rfl⟩

/-- Witness for claim C7: with a succeeding store write, the stored snapshot
carries the sentinel Gini. -/
theorem claim_C7_witness :
    ∃ si₀, (updateStakingInfo exEnv ⟨[], []⟩ 10).2.1.db = (10, si₀) :: [] ∧
      si₀.Gini = -1 :=
  (claim_C7 exEnv ⟨[], []⟩ 10 exEnvSI rfl).1 rfl

/-- Claim C8: `fillMissingGiniCoefficient` is a no-op — identical snapshot,
no error, no collaborator access — whenever `UseGini` is false or the Gini
field is already non-sentinel (`≥ 0`); it touches the governance helper only
when `UseGini` holds and the Gini field is negative; and once a fill has
produced a non-negative Gini, a repeated fill is a no-op. -/
theorem claim_C8 (env : ChainEnv) (si : StakingInfo) (n : ℕ) :
    ((si.UseGini = false ∨ 0 ≤ si.Gini) →
      fillMissingGiniCoefficient env si n = (si, none, [])) ∧
    ((fillMissingGiniCoefficient env si n).2.2 ≠ [] →
      si.UseGini = true ∧ si.Gini < 0) ∧
    (0 ≤ ((fillMissingGiniCoefficient env si n).1).Gini →
      fillMissingGiniCoefficient env ((fillMissingGiniCoefficient env si n).1) n =
        ((fillMissingGiniCoefficient env si n).1, none, [])) := by
  have hnoop : ∀ si' : StakingInfo, (si'.UseGini = false ∨ 0 ≤ si'.Gini) →
      fillMissingGiniCoefficient env si' n = (si', none, []) := by
    rintro si' (h | h)
    · rw [fillMissingGiniCoefficient, if_pos h]
    · rw [fillMissingGiniCoefficient]
      by_cases hu : si'.UseGini = false
      · rw [if_pos hu]
      · rw [if_neg hu, if_pos h]
  refine ⟨hnoop si, ?_, ?_⟩
  · intro h
    by_cases hu : si.UseGini = false
    · rw [fillMissingGiniCoefficient, if_pos hu] at h
      exact absurd rfl h
    · by_cases hg : 0 ≤ si.Gini
      · rw [fillMissingGiniCoefficient, if_neg hu, if_pos hg] at h
        exact absurd rfl h
      · exact ⟨Bool.not_eq_false _ ▸ hu, not_le.mp hg⟩
  · intro h
    exact hnoop _ (Or.inr h)

/-- Witness for claim C8: a snapshot with `UseGini = false` is untouched. -/
theorem claim_C8_witness :
    fillMissingGiniCoefficient exEnv exEnvSI 5 = (exEnvSI, none, []) :=
  (claim_C8 exEnv exEnvSI 5).1 (Or.inl rfl)

/-- Claim C9: `CheckStakingInfoStored` maps the block number to its staking
block; a snapshot already readable from the store makes it succeed with no
recompute (state unchanged, only a store read in the trace); otherwise it
runs the full `updateStakingInfo` path and returns its error; and the
migration prerequisite registered by `NewStakingManager` succeeds exactly
when the check succeeds for the block number and then for the block number
plus the staking update interval. -/
theorem claim_C9 (env : ChainEnv) (st : ManagerState) (blockNum : ℕ) :
    (∀ si, getStakingInfoFromDB st (calcStakingBlockNumber env blockNum) = some si →
      checkStakingInfoStored env st blockNum =
        (none, st, [Access.dbGet (calcStakingBlockNumber env blockNum)])) ∧
    (getStakingInfoFromDB st (calcStakingBlockNumber env blockNum) = none →
      checkStakingInfoStored env st blockNum =
        ((updateStakingInfo env st (calcStakingBlockNumber env blockNum)).1.2,
          (updateStakingInfo env st (calcStakingBlockNumber env blockNum)).2.1,
          Access.dbGet (calcStakingBlockNumber env blockNum) ::
            (updateStakingInfo env st (calcStakingBlockNumber env blockNum)).2.2)) ∧
    ((migrationPrerequisite env st blockNum).1 = none ↔
      (checkStakingInfoStored env st blockNum).1 = none ∧
      (checkStakingInfoStored env (checkStakingInfoStored env st blockNum).2.1
        (blockNum + env.interval)).1 = none) := by
  refine ⟨?_, ?_, ?_⟩
  · intro si hdb
    rw [checkStakingInfoStored]
    simp only [hdb]
  · intro hdb
    rw [checkStakingInfoStored]
    simp only [hdb]
    rfl
  · rcases hmp : checkStakingInfoStored env st blockNum with ⟨e, st', tr⟩
    rw [migrationPrerequisite, hmp]
    cases e with
    | some e => simp
    | none => simp

/-- Witness for claim C9: with the snapshot of staking block 10 present in
the store, the check for block 13 succeeds with a single store read. -/
theorem claim_C9_witness :
    checkStakingInfoStored exEnv ⟨[], [(10, exEnvSI)]⟩ 13 =
      (none, ⟨[], [(10, exEnvSI)]⟩, [Access.dbGet 10]) :=
  (claim_C9 exEnv ⟨[], [(10, exEnvSI)]⟩ 13).1 exEnvSI rfl
